import Mathlib

/-!
Verification model of `pytorch_forecasting/data.py`.

The file shallowly embeds the components of the timeseries data module:
the `NaNLabelEncoder` categorical encoder, the configuration checks of
`TimeSeriesDataSet.__init__`, the sharing of encoder/scaler dictionaries
between dataset instances (including Python's mutable default arguments),
the window-index construction of `construct_index`, the predict-mode
filtering, and the length arithmetic, randomization and column splitting
of `__getitem__`.  Definitions are translated from the source; theorems
settle the specification claims about them.
-/

namespace PF

/-! ### NaNLabelEncoder (`data.py` lines 16-58)

Categorical values are modelled as `Option ℕ`: `none` is the missing
value (NaN), `some v` an ordinary category.  `classes_` of a fitted
sklearn `LabelEncoder` is the sorted list of distinct values seen at
fit time; `transform` maps a value to its position in `classes_`
(raising a lookup error, modelled as `Option.none`, when the value is
absent) and `inverse_transform` maps a position back to the value. -/

/-- Value type of the categorical encoder: `none` models NaN/missing. -/
abbrev CatVal := Option ℕ

/-- Boolean comparison used to model numpy's sorting of the distinct values. -/
def catLe : CatVal → CatVal → Bool
  | none, _ => true
  | some _, none => false
  | some a, some b => a ≤ b

/-- Insert a value into a list sorted by `catLe`. -/
def insSorted (x : CatVal) : List CatVal → List CatVal
  | [] => [x]
  | y :: ys => if catLe x y then x :: y :: ys else y :: insSorted x ys

/-- Insertion sort by `catLe`. -/
def sortCats : List CatVal → List CatVal
  | [] => []
  | y :: ys => insSorted y (sortCats ys)

/-- Model of `sklearn.LabelEncoder.fit`: `classes_` is the sorted list of
distinct values of the fit data (numpy `unique`). -/
def sklearnClasses (y : List CatVal) : List CatVal := (sortCats y).dedup

/-- Position of a value in `classes_`; `none` models the lookup error sklearn
raises on a previously unseen value (its transform maps each value to its
index in `classes_`). -/
def classIndex : List CatVal → CatVal → Option ℕ
  | [], _ => none
  | c :: cs, x => if x = c then some 0 else (classIndex cs x).map (· + 1)

/-- Fitted state of `NaNLabelEncoder`: the `add_nan` flag and `classes_`. -/
structure NaNLabelEncoder where
  add_nan : Bool
  classes : List CatVal
deriving Repr, DecidableEq

/-- Model of `NaNLabelEncoder.fit` (lines 46-53): first the plain sklearn fit,
then, if `add_nan`, `classes_` is rebuilt as the NaN marker followed by all
fitted classes that are not NaN. -/
def NaNLabelEncoder.fit (add_nan : Bool) (y : List CatVal) : NaNLabelEncoder :=
  let base := sklearnClasses y
  { add_nan := add_nan
    classes := if add_nan then none :: base.filter (fun c => c.isSome) else base }

/-- Model of `NaNLabelEncoder.transform` (lines 55-58) on a single value.
`encode_nans` maps missing values to the NaN marker, which is the identity
in this representation; the sklearn transform then looks the value up in
`classes_`, a lookup error (`none`) when it is absent. -/
def NaNLabelEncoder.transform (e : NaNLabelEncoder) (x : CatVal) : Option ℕ :=
  classIndex e.classes x

/-- Column names the constructor writes into the data frame. -/
def reservedColumnNames : List String :=
  ["__time_idx__", "__target__", "__weight__", "relative_time_idx"]

/-- Pandas column assignment: overwrite the column when it exists (keeping
its position), append it otherwise. -/
def insertColumn (cols : List String) (c : String) : List String :=
  if c ∈ cols then cols else cols ++ [c]

/-- Configuration of `TimeSeriesDataSet.__init__` relevant to its checks. -/
structure InitConfig where
  target : String
  time_varying_known_reals : List String
  min_prediction_length : Int
  dataIndex : List ℕ
  dataColumns : List String
  weight : Option String
  add_relative_time_idx : Bool
deriving Repr, DecidableEq

/-- Model of the construction-time checks and reserved-column assignments of
`__init__`: the three assertions in source order, then the assignments of
the reserved columns.  Returns the column list of the stored data frame. -/
def initDataColumns (cfg : InitConfig) : Except String (List String) :=
  if cfg.min_prediction_length ≤ 0 then
    .error "prediction length must be larger than 0"
  else if cfg.target ∈ cfg.time_varying_known_reals then
    .error "target should be an unknown continuous variable in the future"
  else if ¬ cfg.dataIndex.Nodup then
    .error "data index has to be unique"
  else
    let c1 := insertColumn cfg.dataColumns "__time_idx__"
    let c2 := insertColumn c1 "__target__"
    let c3 := match cfg.weight with
      | some _ => insertColumn c2 "__weight__"
      | none => c2
    let c4 := if cfg.add_relative_time_idx then insertColumn c3 "relative_time_idx" else c3
    .ok c4

/-! ### Sharing of fitted state between dataset instances
(`__init__` lines 160-190, `from_dataset` lines 227-247)

Python dictionaries and lists are mutable heap objects passed by
reference.  `categoricals_encoders={}`, `scalers={}` and the list
defaults such as `time_varying_known_reals=[]` are allocated once at
function-definition time and shared by every call that does not pass
the argument; `from_dataset` passes the source dataset's own
dictionaries.  The heap is modelled explicitly: addresses are indices
into stores of dictionaries and lists, and a fitted encoder or scaler
is recorded as the column data it was fitted on. -/

/-- A fitted encoder or scaler, recorded as the column it was fitted on. -/
abbrev FitState := List Int

/-- A Python dict mapping column names to fitted encoders/scalers. -/
abbrev FitDict := List (String × FitState)

/-- A data frame, as columns of values. -/
abbrev DataTable := List (String × List Int)

/-- Heap of mutable Python objects: dictionaries and string lists. -/
structure Heap where
  dicts : List FitDict
  lists : List (List String)
deriving Repr, DecidableEq

def getDict (h : Heap) (r : ℕ) : FitDict := h.dicts.getD r []

def setDict (h : Heap) (r : ℕ) (d : FitDict) : Heap := { h with dicts := h.dicts.set r d }

def getList (h : Heap) (r : ℕ) : List String := h.lists.getD r []

def setList (h : Heap) (r : ℕ) (l : List String) : Heap := { h with lists := h.lists.set r l }

/-- `name in dict`. -/
def dictHas (d : FitDict) (k : String) : Bool := d.any (fun kv => kv.1 == k)

/-- `data[name]`: the values of a column. -/
def column (data : DataTable) (name : String) : FitState :=
  ((data.find? (fun kv => kv.1 == name)).map (fun kv => kv.2)).getD []

/-- Entry of a fitted encoder/scaler dictionary: the vocabulary the object
was fitted on (`[]` when the name is absent, which `dictHas` rules out). -/
def lookupFit (d : FitDict) (k : String) : FitState :=
  ((d.find? (fun kv => kv.1 == k)).map (fun kv => kv.2)).getD []

/-- Model of the encoder loop of `__init__` (lines 161-167): for each
categorical name, when the dictionary at `ref` has no entry yet, fit on the
column of the data and store the result in place (lines 162-165); then
encode the column with the stored encoder (lines 166-167).  The encoding is
the sklearn lookup of every column value in the encoder's fitted
vocabulary: it raises a lookup error — aborting construction — as soon as
some value is absent (compare `transform_unseen_add_nan_raises`; the data
columns of this model contain no missing values, so add-nan mode admits
nothing beyond the fitted vocabulary).  The encoded codes themselves are
not tracked, only success or failure of the loop. -/
def fitTransformEncoders : Heap → ℕ → List String → DataTable → Except String Heap
  | h, _, [], _ => .ok h
  | h, ref, name :: names, data =>
    let h1 := if dictHas (getDict h ref) name then h
      else setDict h ref (getDict h ref ++ [(name, column data name)])
    if (column data name).all (fun v => (lookupFit (getDict h1 ref) name).contains v) then
      fitTransformEncoders h1 ref names data
    else
      .error "y contains previously unseen labels"

/-- Model of the scaler loop of `__init__` (lines 183-190): for each real
name, when the dictionary at `ref` has no entry yet, fit on the column of
the data and store the result in place.  The subsequent rescaling of the
column (lines 189-190) cannot fail — `StandardScaler`/`MinMaxScaler`
transform any numeric column — and the rescaled values are read by no
claim, so only the dictionary updates are tracked. -/
def fitMissing (h : Heap) (ref : ℕ) (names : List String) (data : DataTable) : Heap :=
  names.foldl
    (fun hh name =>
      if dictHas (getDict hh ref) name then hh
      else setDict hh ref (getDict hh ref ++ [(name, column data name)]))
    h

/-- References a dataset instance holds to its mutable collaborators. -/
structure DatasetRefs where
  encodersRef : ℕ
  scalersRef : ℕ
  knownRealsRef : ℕ
deriving Repr, DecidableEq

/-- Arguments of a dataset construction relevant to fitted-state sharing. -/
structure DatasetArgs where
  static_categoricals : List String
  static_reals : List String
  time_varying_unknown_reals : List String
  add_relative_time_idx : Bool
  data : DataTable
deriving Repr, DecidableEq

/-- The part of `__init__` after a successful encoder loop: the appending
of `relative_time_idx` to the known-reals list when absent together with
the dummy column (lines 177-180), and the scaler loop over
`reals = static + known + unknown` (lines 183-190). -/
def initRest (h1 : Heap) (a : DatasetArgs) (refs : DatasetRefs) : Heap :=
  let h2 :=
    if a.add_relative_time_idx && !((getList h1 refs.knownRealsRef).contains "relative_time_idx")
    then setList h1 refs.knownRealsRef (getList h1 refs.knownRealsRef ++ ["relative_time_idx"])
    else h1
  let dataR := if a.add_relative_time_idx then ("relative_time_idx", [0]) :: a.data else a.data
  let reals := a.static_reals ++ getList h2 refs.knownRealsRef ++ a.time_varying_unknown_reals
  fitMissing h2 refs.scalersRef reals dataR

/-- Model of the body of `__init__` acting on the heap: the encoder loop
(lines 161-167), whose lookup error on an out-of-vocabulary categorical
value aborts construction, followed by the `relative_time_idx` handling and
the scaler loop. -/
def runInit (h : Heap) (a : DatasetArgs) (refs : DatasetRefs) : Except String Heap :=
  (fitTransformEncoders h refs.encodersRef a.static_categoricals a.data).map
    (fun h1 => initRest h1 a refs)

/-- The module after import: the three mutable default-argument objects
(`categoricals_encoders={}`, `scalers={}`, `time_varying_known_reals=[]`)
are allocated once and remembered. -/
structure PyModule where
  heap : Heap
  defaultEncodersRef : ℕ
  defaultScalersRef : ℕ
  defaultKnownRealsRef : ℕ
deriving Repr, DecidableEq

/-- The freshly imported module: empty default dicts at addresses 0 and 1,
empty default known-reals list at address 0. -/
def freshModule : PyModule := ⟨⟨[[], []], [[]]⟩, 0, 1, 0⟩

/-- Model of calling `TimeSeriesDataSet(...)`: an argument that is not
passed (`none`) is the shared module-level default object; an encoder
lookup error aborts the construction. -/
def constructTSDS (m : PyModule) (a : DatasetArgs)
    (encodersArg scalersArg knownRealsArg : Option ℕ) :
    Except String (PyModule × DatasetRefs) :=
  let refs : DatasetRefs :=
    { encodersRef := encodersArg.getD m.defaultEncodersRef
      scalersRef := scalersArg.getD m.defaultScalersRef
      knownRealsRef := knownRealsArg.getD m.defaultKnownRealsRef }
  (runInit m.heap a refs).map (fun h => ({ m with heap := h }, refs))

/-- Model of `from_dataset` (lines 228-247): the keyword arguments are the
source dataset's own attributes, in particular its `categoricals_encoders`
and `scalers` dictionaries and its `time_varying_known_reals` list, passed
by reference to a fresh construction; `update_kwargs` may replace the
column configuration and the data. -/
def from_dataset (m : PyModule) (src : DatasetRefs) (a : DatasetArgs) :
    Except String (PyModule × DatasetRefs) :=
  constructTSDS m a (some src.encodersRef) (some src.scalersRef) (some src.knownRealsRef)

/-! ### Index construction (`construct_index`, lines 249-283)

The sorted data is modelled as a list of groups, each group the ascending
list of its time indices; `construct_index` builds one row per data row.
`groupRow` carries the columns of `df_index`: the group's first and last
time (`groupby.transform` of `nth 0` / `nth -1`), the difference to the
next time within the group with fill value 1 at the group end
(`-diff(-1).fillna(-1)`), the running row number (`np.arange`), the row's
own time and the group number (`ngroup`). -/

/-- A panel: the sorted table as groups of ascending time indices. -/
abbrev Panel := List (List Int)

/-- One row of `df_index`. -/
structure IndexRow where
  time_first : Int
  time_last : Int
  time_diff_to_next : Int
  index_start : ℕ
  time : Int
  group_id : ℕ
deriving Repr, DecidableEq, Inhabited

/-- Row `k` of the `df_index` block of one group whose rows start at flat
position `start`. -/
def groupRow (gid : ℕ) (ts : List Int) (start k : ℕ) : IndexRow :=
  { time_first := ts.headD 0
    time_last := ts.getLastD 0
    time_diff_to_next := if k + 1 < ts.length then ts.getD (k + 1) 0 - ts.getD k 0 else 1
    index_start := start + k
    time := ts.getD k 0
    group_id := gid }

/-- The `df_index` block of one group. -/
def mkGroupRows (gid start : ℕ) (ts : List Int) : List IndexRow :=
  (List.range ts.length).map (fun k => groupRow gid ts start k)

/-- `df_index` of the groups from group number `gid` on, whose rows start at
flat position `start`. -/
def dfIndexFrom : ℕ → ℕ → Panel → List IndexRow
  | _, _, [] => []
  | gid, start, ts :: rest => mkGroupRows gid start ts ++ dfIndexFrom (gid + 1) (start + ts.length) rest

/-- The full `df_index` (lines 251-260). -/
def dfIndex (p : Panel) : List IndexRow := dfIndexFrom 0 0 p

/-- Positional access to `df_index` (pandas `iloc`). -/
def rowAt (p : Panel) (i : ℕ) : IndexRow := (dfIndex p).getD i default

/-- The `count` column (line 259): `time_last - time_first + 1`. -/
def rowCount (r : IndexRow) : Int := r.time_last - r.time_first + 1

/-- `max_time` (lines 263-265): `time + max_encoder_length +
max_prediction_length` clipped to `count + time_first`. -/
def maxTime (encL predL : ℕ) (r : IndexRow) : Int :=
  min (r.time + (encL : Int) + (predL : Int)) (rowCount r + r.time_first)

/-- The direct arithmetic end index of the no-gap branch (line 280):
`index_start + (max_time - time - 1)`. -/
def indexEndArith (p : Panel) (encL predL i : ℕ) : Int :=
  ((rowAt p i).index_start : Int) + (maxTime encL predL (rowAt p i) - (rowAt p i).time - 1)

/-- One vectorized update of the iterative branch (lines 270-277) for a
single row with maximum reachable end time `mt`: the end pointer `e` stays
when `time[e] + time_diff_to_next[e] + 1 > mt` and advances by one row
otherwise. -/
def stepEnd (p : Panel) (mt : Int) (e : ℕ) : ℕ :=
  if (rowAt p e).time + (rowAt p e).time_diff_to_next + 1 > mt then e else e + 1

/-- The number of loop iterations of the iterative branch (line 271):
`df_index["count"].max()`. -/
def iterSteps (p : Panel) : ℕ :=
  (((dfIndex p).map rowCount).foldr max 0).toNat

/-- The iterative end index: starting from `index_start`, apply the update
`count.max()` times. -/
def indexEndIter (p : Panel) (encL predL i : ℕ) : ℕ :=
  (stepEnd p (maxTime encL predL (rowAt p i)))^[iterSteps p] (rowAt p i).index_start

/-- The `sequence_length` column (line 283) for end pointer `e` of row `i`:
`time.iloc[index_end] - time + 1`. -/
def sequenceLengthAt (p : Panel) (e i : ℕ) : Int :=
  (rowAt p e).time - (rowAt p i).time + 1

/-- A group without gaps: successive time indices differ by one. -/
def Gapless (ts : List Int) : Prop :=
  ∀ k, k + 1 < ts.length → ts.getD (k + 1) 0 = ts.getD k 0 + 1

/-- A panel without gaps anywhere. -/
def GapFree (p : Panel) : Prop := ∀ ts ∈ p, Gapless ts

/-! ### Predict-mode filtering (`construct_index`, lines 285-292)

At this point every row of `df_index` carries its `sequence_length`; the
fields below are the columns the predict-mode filter reads.  The filter
keeps the rows whose real-time span up to the series end respects
`max_prediction_length + max_encoder_length` and whose `sequence_length`
meets `min_prediction_length + min_encoder_length`, then
`groupby("group_id").sequence_length.idxmax()` selects per group the label
of the first row attaining the maximal sequence length and `.loc` keeps
exactly those rows. -/

/-- A window row at filtering time. -/
structure WRow where
  group_id : ℕ
  time : Int
  time_last : Int
  index_start : ℕ
  index_end : ℕ
  sequence_length : Int
deriving Repr, DecidableEq, Inhabited

/-- The predict-mode eligibility filter (lines 287-290). -/
def predictEligible (maxEnc maxPred minEnc minPred : ℕ) (r : WRow) : Bool :=
  (r.time_last - r.time + 1 ≤ (maxPred : Int) + (maxEnc : Int)) &&
    ((minPred : Int) + (minEnc : Int) ≤ r.sequence_length)

/-- The first row attaining the maximal `sequence_length` of a list: pandas
`idxmax`, which returns the first index of the maximum. -/
def firstMax : List WRow → Option WRow
  | [] => none
  | r :: rs =>
    match firstMax rs with
    | none => some r
    | some b => if b.sequence_length > r.sequence_length then some b else some r

/-- The predict-mode branch (lines 285-292): filter the eligible rows, then
keep per group number the first row of maximal sequence length. -/
def predictFilter (maxEnc maxPred minEnc minPred : ℕ) (d : List WRow) : List WRow :=
  let kept := d.filter (predictEligible maxEnc maxPred minEnc minPred)
  ((kept.map WRow.group_id).dedup).filterMap
    (fun g => firstMax (kept.filter (fun r => r.group_id == g)))

/-! ### Window length determination (`__getitem__`, lines 329-336)

`data_cat[-1, -1]` is the time index of the last row of the window.  The
code asserts `sequence_length >= min_prediction_length`, computes the
decoder length as the minimum of `last_time - (min_prediction_idx - 1)`,
`max_prediction_length` and `sequence_length`, sets the encoder length to
the remainder and asserts `decoder_length >= min_prediction_length`;
failing assertions are modelled as `Except.error`. -/

/-- The decoder-length formula of line 332-334. -/
def decoderLengthCalc (lastTime min_prediction_idx max_prediction_length sequence_length : Int) : Int :=
  min (min (lastTime - (min_prediction_idx - 1)) max_prediction_length) sequence_length

/-- Model of lines 329-336: the two assertions and the decoder/encoder
length computation, returning `(decoder_length, encoder_length)`. -/
def determineLengths (min_prediction_length lastTime min_prediction_idx max_prediction_length
    sequence_length : Int) : Except String (Int × Int) :=
  if sequence_length < min_prediction_length then
    .error "sequence length below minimum prediction length"
  else if decoderLengthCalc lastTime min_prediction_idx max_prediction_length sequence_length
      < min_prediction_length then
    .error "decoder length below minimum prediction length"
  else
    .ok (decoderLengthCalc lastTime min_prediction_idx max_prediction_length sequence_length,
      sequence_length
        - decoderLengthCalc lastTime min_prediction_idx max_prediction_length sequence_length)

/-! ### Length randomization (`__getitem__`, lines 338-356)

The Beta and Binomial draws are nondeterministic inputs; a Binomial sample
with `n` trials lies in `0..n`.  The code floors the drawn decoder length
at `min_prediction_length`, and truncates the window to
`data[encoder_length - new_encoder_length : encoder_length +
new_decoder_length]` only when the new total is strictly smaller than the
current window length. -/

/-- Model of lines 344-356 on a window `data` (one entry per row):
given the sampled new encoder length and the raw sampled decoder length,
return the (possibly truncated) window and the new encoder and decoder
lengths. -/
def randomizeWindow (min_prediction_length encoder_length decoder_length : ℕ)
    (encSample decSample : ℕ) (data : List Int) : List Int × ℕ × ℕ :=
  if encSample + max min_prediction_length decSample < data.length then
    (((data.drop (encoder_length - encSample)).take
        ((encoder_length + max min_prediction_length decSample)
          - (encoder_length - encSample))),
      encSample, max min_prediction_length decSample)
  else
    (data, encoder_length, decoder_length)

/-! ### Column splitting of the returned example (`__getitem__`, lines 366-385)

The continuous tensor has the columns `reals ++ [__target__]`, plus
`__weight__` when a weight column is configured (lines 212-215).  Without
a weight the code takes the last column as target and drops it from the
features; with a weight it drops the last two columns from the features
but sets `target = data_cont[:, :-2]`, i.e. all columns except the last
two, instead of the target column.  Rows are modelled as lists of values;
a column selection maps over the rows. -/

/-- One row of the continuous tensor (lines 212-215): the real features,
then the target, then the weight when configured. -/
def contRow (reals : List Int) (targetVal : Int) (weightVal : Option Int) : List Int :=
  match weightVal with
  | none => reals ++ [targetVal]
  | some w => reals ++ [targetVal, w]

/-- `target = data_cont[:, -1]` of the branch without weight (line 367). -/
def targetNoWeight (dataCont : List (List Int)) : List Int :=
  dataCont.map (fun row => row.getLastD 0)

/-- `data_cont = data_cont[:, :-1]` of the branch without weight (line 368). -/
def featuresNoWeight (dataCont : List (List Int)) : List (List Int) :=
  dataCont.map List.dropLast

/-- `target = data_cont[:, :-2]` of the branch with weight (line 370). -/
def targetWithWeight (dataCont : List (List Int)) : List (List Int) :=
  dataCont.map (fun row => row.dropLast.dropLast)

/-- `data_cont = data_cont[:, :-2]` of the branch with weight (line 371). -/
def featuresWithWeight (dataCont : List (List Int)) : List (List Int) :=
  dataCont.map (fun row => row.dropLast.dropLast)

/-- Modelled from the spec: the realized target values of a window are the
values of the target column, which sits second to last when a weight
column is configured.  Used to compare the code's returned target
against the output contract. -/
def targetColumnWithWeight (dataCont : List (List Int)) : List Int :=
  dataCont.map (fun row => row.dropLast.getLastD 0)

end PF

namespace PF

/-! ## Theorems -/

/-- C3: `__getitem__` computes the decoder length as
`min(last_time_in_window - (min_prediction_idx - 1), max_prediction_length,
sequence_length)` and the encoder length as `sequence_length -
decoder_length`, and it fails with a length-violation error rather than
returning an example whenever the computed decoder length is below the
configured `min_prediction_length`. -/
theorem getitem_decoder_length_spec (minPL lastTime minPI maxPL seqLen : Int) :
    (∀ dl el, determineLengths minPL lastTime minPI maxPL seqLen = .ok (dl, el) →
      dl = decoderLengthCalc lastTime minPI maxPL seqLen ∧ el = seqLen - dl) ∧
    (decoderLengthCalc lastTime minPI maxPL seqLen < minPL →
      ∃ msg, determineLengths minPL lastTime minPI maxPL seqLen = .error msg) := by
  have hle : decoderLengthCalc lastTime minPI maxPL seqLen ≤ seqLen := by
    unfold decoderLengthCalc; omega
  unfold determineLengths
  constructor
  · intro dl el h
    split at h
    · exact absurd h (by simp)
    · split at h
      · exact absurd h (by simp)
      · simp only [Except.ok.injEq, Prod.mk.injEq] at h
        exact ⟨h.1.symm, by omega⟩
  · intro hlt
    split
    · exact ⟨_, rfl⟩
    · exact ⟨"decoder length below minimum prediction length", by simp [hlt]⟩
/-- C3 witness: at `min_prediction_length = 2`, a window whose decoder-length
formula evaluates to `1` is rejected with an error. -/
theorem getitem_decoder_length_spec_witness :
    ∃ msg, determineLengths 2 10 0 5 1 = .error msg :=
  (getitem_decoder_length_spec 2 10 0 5 1).2 (by decide)

/-- C4: with length randomization, the window is truncated to the newly
drawn encoder/decoder lengths exactly when their total is strictly smaller
than the current window length and is never extended; the drawn decoder
length is floored at `min_prediction_length`, no error path exists in the
randomization block, and the decoder segment of the returned window always
has length at least `min_prediction_length`. -/
theorem randomize_window_spec (minPL encL decL encS decS : ℕ) (data : List Int)
    (hE : encS ≤ encL) (hD : decS ≤ decL) (hM : minPL ≤ decL)
    (hW : data.length = encL + decL) :
    ((randomizeWindow minPL encL decL encS decS data).1.length ≤ data.length) ∧
    (encS + max minPL decS < data.length →
      randomizeWindow minPL encL decL encS decS data =
        ((data.drop (encL - encS)).take (encS + max minPL decS), encS, max minPL decS)) ∧
    (¬ encS + max minPL decS < data.length →
      randomizeWindow minPL encL decL encS decS data = (data, encL, decL)) ∧
    (minPL ≤ (randomizeWindow minPL encL decL encS decS data).2.2) ∧
    ((randomizeWindow minPL encL decL encS decS data).1.length
        - (randomizeWindow minPL encL decL encS decS data).2.1
      = (randomizeWindow minPL encL decL encS decS data).2.2) := by
  have htake : (encL + max minPL decS) - (encL - encS) = encS + max minPL decS := by omega
  unfold randomizeWindow
  split
  · rename_i hlt
    refine ⟨?_, fun _ => by rw [htake], fun hn => absurd hlt hn, ?_, ?_⟩
    · simp only [List.length_take, List.length_drop]
      omega
    · dsimp only
      omega
    · simp only [List.length_take, List.length_drop]
      omega
  · rename_i hge
    exact ⟨le_refl _, fun hlt => absurd hlt hge, fun _ => rfl, hM, by dsimp only; omega⟩

/-- C4 witness: a concrete randomization draw that truncates the window and
keeps the decoder segment at the minimum prediction length. -/
theorem randomize_window_spec_witness :
    (randomizeWindow 1 3 2 1 0 [0, 1, 2, 3, 4]).1.length ≤ 5 ∧
    (1 ≤ (randomizeWindow 1 3 2 1 0 [0, 1, 2, 3, 4]).2.2) :=
  ⟨(randomize_window_spec 1 3 2 1 0 [0, 1, 2, 3, 4]
      (by decide) (by decide) (by decide) (by decide)).1,
    (randomize_window_spec 1 3 2 1 0 [0, 1, 2, 3, 4]
      (by decide) (by decide) (by decide) (by decide)).2.2.2.1⟩

/-- C5 (code evaluation at the failing input): with a weight column
configured, the feature tensor correctly excludes the target and weight
columns, but the returned target is `data_cont[:, :-2]` — the matrix of
real features — rather than the values of the target column, so the
returned encoder target differs from the encoder segment's target values;
without a weight column the target column is returned correctly and split
at the encoder length. -/
theorem getitem_target_with_weight_bug :
    featuresWithWeight [contRow [10] 20 (some 30), contRow [11] 21 (some 31)] = [[10], [11]] ∧
    featuresNoWeight [contRow [10] 20 none, contRow [11] 21 none] = [[10], [11]] ∧
    (targetNoWeight [contRow [10] 20 none, contRow [11] 21 none]).take 1 = [20] ∧
    (targetNoWeight [contRow [10] 20 none, contRow [11] 21 none]).drop 1 = [21] ∧
    targetColumnWithWeight [contRow [10] 20 (some 30), contRow [11] 21 (some 31)] = [20, 21] ∧
    targetWithWeight [contRow [10] 20 (some 30), contRow [11] 21 (some 31)] = [[10], [11]] ∧
    ((targetWithWeight [contRow [10] 20 (some 30), contRow [11] 21 (some 31)]).take 1).flatten ≠
      (targetColumnWithWeight [contRow [10] 20 (some 30), contRow [11] 21 (some 31)]).take 1 := by
  decide

/-- C7 (code evaluation at the failing input): an encoder fitted in add-nan
mode raises a lookup error (`none`) on a value absent from the fit set
instead of mapping it to the reserved code 0; only the NaN marker itself is
mapped to 0. -/
theorem transform_unseen_add_nan_raises :
    (NaNLabelEncoder.fit true [some 1, some 2]).add_nan = true ∧
    (some 5 : CatVal) ∉ [some 1, some 2] ∧
    (NaNLabelEncoder.fit true [some 1, some 2]).transform (some 5) = none ∧
    (NaNLabelEncoder.fit true [some 1, some 2]).transform none = some 0 := by
  decide

/-- C8 counterexample: a data column named `__target__` collides with an
internally reserved name, yet construction succeeds (the column is silently
overwritten), refuting that such a collision fails at construction. -/
theorem reserved_name_collision_not_rejected :
    "__target__" ∈ reservedColumnNames ∧
    "__target__" ∈ (["__target__", "y", "x"] : List String) ∧
    initDataColumns ⟨"y", ["x"], 1, [0, 1], ["__target__", "y", "x"], none, true⟩ =
      .ok ["__target__", "y", "x", "__time_idx__", "relative_time_idx"] :=
  ⟨by decide, by decide, rfl⟩

/-- C8 (amended): when the target is listed among the time-varying known
reals or the data index is not unique, construction fails immediately with
an error; a collision with a reserved column name is not checked. -/
theorem init_config_errors_fatal (cfg : InitConfig)
    (h : cfg.target ∈ cfg.time_varying_known_reals ∨ ¬ cfg.dataIndex.Nodup) :
    ∃ msg, initDataColumns cfg = .error msg := by
  unfold initDataColumns
  split
  · exact ⟨_, rfl⟩
  · split
    · exact ⟨_, rfl⟩
    · split
      · exact ⟨_, rfl⟩
      · rename_i hT hU
        rcases h with h | h
        · exact absurd h hT
        · exact absurd h hU

/-- C8 witness: constructing with the target listed among the known reals
fails with an error. -/
theorem init_config_errors_fatal_witness :
    ∃ msg, initDataColumns ⟨"y", ["y", "x"], 1, [0, 1], ["y", "x"], none, true⟩ = .error msg :=
  init_config_errors_fatal ⟨"y", ["y", "x"], 1, [0, 1], ["y", "x"], none, true⟩
    (Or.inl (by decide))

/-- C10: the constructor's `categoricals_encoders`, `scalers` and
`time_varying_known_reals` defaults are shared mutable objects.  Run A
constructs a dataset with data column `g = [1]` from a freshly imported
module: construction succeeds, its fitted encoder and scaler land in the
shared default dicts and `relative_time_idx` is appended to the shared
default list.  Run B first constructs a dataset with data `g = [1, 2]` and
then repeats run A's construction with identical explicit arguments: the
second construction finds the defaults populated, every value of its `g`
column lies in the already-fitted vocabulary so every encoding lookup
succeeds, it reuses the prior fitted state without fitting its own (the
heap is unchanged), and its resulting encoder state — fitted on the other
dataset's data — differs from run A's. -/
theorem default_arguments_share_fitted_state :
    ∃ mA dsA mB1 dsB1 mB2 dsB2,
      constructTSDS freshModule ⟨["g"], [], [], true, [("g", [1])]⟩ none none none =
        .ok (mA, dsA) ∧
      constructTSDS freshModule ⟨["g"], [], [], true, [("g", [1, 2])]⟩ none none none =
        .ok (mB1, dsB1) ∧
      constructTSDS mB1 ⟨["g"], [], [], true, [("g", [1])]⟩ none none none =
        .ok (mB2, dsB2) ∧
      dsA.encodersRef = freshModule.defaultEncodersRef ∧
      getDict mA.heap freshModule.defaultEncodersRef = [("g", [1])] ∧
      getDict mA.heap freshModule.defaultScalersRef = [("relative_time_idx", [0])] ∧
      getList mA.heap freshModule.defaultKnownRealsRef = ["relative_time_idx"] ∧
      (mB2.heap = mB1.heap ∧ dsB2 = dsB1) ∧
      getDict mB2.heap dsB2.encodersRef ≠ getDict mA.heap dsA.encodersRef :=
  ⟨⟨⟨[[("g", [1])], [("relative_time_idx", [0])]], [["relative_time_idx"]]⟩, 0, 1, 0⟩,
    ⟨0, 1, 0⟩,
    ⟨⟨[[("g", [1, 2])], [("relative_time_idx", [0])]], [["relative_time_idx"]]⟩, 0, 1, 0⟩,
    ⟨0, 1, 0⟩,
    ⟨⟨[[("g", [1, 2])], [("relative_time_idx", [0])]], [["relative_time_idx"]]⟩, 0, 1, 0⟩,
    ⟨0, 1, 0⟩,
    rfl, rfl, rfl, rfl, rfl, rfl, rfl, ⟨rfl, rfl⟩, by decide⟩

end PF

namespace PF

/-- A fitting loop over names that are all present already changes nothing. -/
theorem fitMissing_all_present (ref : ℕ) (data : DataTable) :
    ∀ (names : List String) (h : Heap),
    (∀ n ∈ names, dictHas (getDict h ref) n = true) →
    fitMissing h ref names data = h := by
  intro names
  induction names with
  | nil => intro h _; rfl
  | cons n ns ih =>
    intro h hall
    show List.foldl _ _ (n :: ns) = h
    rw [List.foldl_cons]
    have h1 : (if dictHas (getDict h ref) n = true then h
        else setDict h ref (getDict h ref ++ [(n, column data n)])) = h := by
      rw [if_pos (hall n (List.mem_cons_self _ _))]
    rw [h1]
    exact ih h (fun mm hm => hall mm (List.mem_cons_of_mem _ hm))

/-- An encoder loop whose names all carry a fitted encoder already and
whose column values all lie in the fitted vocabularies encodes every
column successfully and changes nothing. -/
theorem fitTransformEncoders_all_present (ref : ℕ) (data : DataTable) :
    ∀ (names : List String) (h : Heap),
    (∀ n ∈ names, dictHas (getDict h ref) n = true) →
    (∀ n ∈ names, ∀ v ∈ column data n, (lookupFit (getDict h ref) n).contains v = true) →
    fitTransformEncoders h ref names data = .ok h := by
  intro names
  induction names with
  | nil => intro h _ _; rfl
  | cons n ns ih =>
    intro h hall hv
    simp only [fitTransformEncoders]
    rw [if_pos (hall n (List.mem_cons_self _ _))]
    have hcond : ((column data n).all
        (fun v => (lookupFit (getDict h ref) n).contains v)) = true :=
      List.all_eq_true.mpr (fun v hvmem => hv n (List.mem_cons_self _ _) v hvmem)
    rw [if_pos hcond]
    exact ih h (fun mm hm => hall mm (List.mem_cons_of_mem _ hm))
      (fun mm hm => hv mm (List.mem_cons_of_mem _ hm))

/-- C9 counterexample: a source dataset is constructed (`g` fitted on
`[1, 2]`), then a derived dataset is built with `from_dataset` on data
whose `g` values lie in that vocabulary and with one extra categorical
column `h`; every encoding lookup succeeds, the derived construction
returns a dataset, and it has inserted a newly fitted encoder for `h` into
the dictionary the two datasets share, so the source dataset's
`categoricals_encoders` is observably mutated. -/
theorem from_dataset_mutates_source_encoders :
    ∃ srcm srcr dm dr,
      constructTSDS freshModule ⟨["g"], [], [], true, [("g", [1, 2])]⟩ none none none =
        .ok (srcm, srcr) ∧
      from_dataset srcm srcr ⟨["g", "h"], [], [], true, [("g", [1]), ("h", [7])]⟩ =
        .ok (dm, dr) ∧
      getDict srcm.heap srcr.encodersRef = [("g", [1, 2])] ∧
      getDict dm.heap srcr.encodersRef = [("g", [1, 2]), ("h", [7])] ∧
      getDict dm.heap srcr.encodersRef ≠ getDict srcm.heap srcr.encodersRef :=
  ⟨⟨⟨[[("g", [1, 2])], [("relative_time_idx", [0])]], [["relative_time_idx"]]⟩, 0, 1, 0⟩,
    ⟨0, 1, 0⟩,
    ⟨⟨[[("g", [1, 2]), ("h", [7])], [("relative_time_idx", [0])]], [["relative_time_idx"]]⟩,
      0, 1, 0⟩,
    ⟨0, 1, 0⟩, rfl, rfl, rfl, rfl, by decide⟩

/-- C9 (amended): `from_dataset` passes the source's fitted encoder and
scaler dictionaries (and its known-reals list) by reference; when every
column of the derived dataset is already covered by them and every
categorical value lies in the fitted vocabulary (otherwise the encoding
lookup aborts construction), the derived construction succeeds, fits
nothing and mutates nothing — the heap, and so the source's encoders,
scalers and tensor data, are unchanged — and the derived dataset holds the
very same objects as the source rather than exclusively owning copies. -/
theorem from_dataset_reuses_fitted_state (m : PyModule) (src : DatasetRefs) (a : DatasetArgs)
    (hc : ∀ n ∈ a.static_categoricals, dictHas (getDict m.heap src.encodersRef) n = true)
    (hv : ∀ n ∈ a.static_categoricals, ∀ v ∈ column a.data n,
      (lookupFit (getDict m.heap src.encodersRef) n).contains v = true)
    (hrel : a.add_relative_time_idx = true →
      (getList m.heap src.knownRealsRef).contains "relative_time_idx" = true)
    (hr : ∀ n ∈ a.static_reals ++ getList m.heap src.knownRealsRef
        ++ a.time_varying_unknown_reals,
      dictHas (getDict m.heap src.scalersRef) n = true) :
    from_dataset m src a = .ok (m, src) := by
  have henc : fitTransformEncoders m.heap src.encodersRef a.static_categoricals a.data =
      .ok m.heap :=
    fitTransformEncoders_all_present _ _ _ _ hc hv
  have hcond : (a.add_relative_time_idx &&
      !((getList m.heap src.knownRealsRef).contains "relative_time_idx")) = false := by
    cases har : a.add_relative_time_idx with
    | false => rfl
    | true => rw [hrel har]; rfl
  have hrest : initRest m.heap a ⟨src.encodersRef, src.scalersRef, src.knownRealsRef⟩ =
      m.heap := by
    simp only [initRest]
    rw [hcond, if_neg Bool.false_ne_true]
    exact fitMissing_all_present _ _ _ _ hr
  have hrun : runInit m.heap a ⟨src.encodersRef, src.scalersRef, src.knownRealsRef⟩ =
      .ok m.heap := by
    show (fitTransformEncoders m.heap src.encodersRef a.static_categoricals a.data).map
      (fun h1 => initRest h1 a ⟨src.encodersRef, src.scalersRef, src.knownRealsRef⟩) =
      .ok m.heap
    rw [henc]
    show Except.ok (initRest m.heap a ⟨src.encodersRef, src.scalersRef, src.knownRealsRef⟩) =
      .ok m.heap
    rw [hrest]
  show (runInit m.heap a ⟨src.encodersRef, src.scalersRef, src.knownRealsRef⟩).map
    (fun h => ({ m with heap := h },
      (⟨src.encodersRef, src.scalersRef, src.knownRealsRef⟩ : DatasetRefs))) = .ok (m, src)
  rw [hrun]
  rfl

/-- C9 witness: a concrete derived construction whose columns are covered
by the source's fitted state and whose values lie in the fitted vocabulary
succeeds, leaves the module heap untouched and returns the source's own
references. -/
theorem from_dataset_reuses_fitted_state_witness :
    from_dataset
        ⟨⟨[[("g", [1, 2])], [("relative_time_idx", [0])]], [["relative_time_idx"]]⟩, 0, 1, 0⟩
        ⟨0, 1, 0⟩ ⟨["g"], [], [], true, [("g", [1])]⟩ =
      .ok (⟨⟨[[("g", [1, 2])], [("relative_time_idx", [0])]], [["relative_time_idx"]]⟩, 0, 1, 0⟩,
        ⟨0, 1, 0⟩) :=
  from_dataset_reuses_fitted_state _ _ _ (by decide) (by decide) (by decide) (by decide)

end PF

namespace PF

/-- A nonempty list has a first maximum. -/
theorem firstMax_cons_isSome (r : WRow) (rs : List WRow) :
    ∃ w, firstMax (r :: rs) = some w := by
  cases hfm : firstMax rs with
  | none => exact ⟨r, by simp [firstMax, hfm]⟩
  | some b =>
    by_cases hgt : b.sequence_length > r.sequence_length
    · exact ⟨b, by simp [firstMax, hfm, hgt]⟩
    · exact ⟨r, by simp [firstMax, hfm, hgt]⟩

/-- The first maximum is an element of the list. -/
theorem firstMax_mem : ∀ (l : List WRow) (w : WRow), firstMax l = some w → w ∈ l := by
  intro l
  induction l with
  | nil => intro w h; simp [firstMax] at h
  | cons r rs ih =>
    intro w h
    cases hfm : firstMax rs with
    | none =>
      rw [show firstMax (r :: rs) = some r by simp [firstMax, hfm]] at h
      injection h with h0
      rw [← h0]
      exact List.mem_cons_self _ _
    | some b =>
      by_cases hgt : b.sequence_length > r.sequence_length
      · rw [show firstMax (r :: rs) = some b by simp [firstMax, hfm, hgt]] at h
        injection h with h0
        rw [← h0]
        exact List.mem_cons_of_mem _ (ih b hfm)
      · rw [show firstMax (r :: rs) = some r by simp [firstMax, hfm, hgt]] at h
        injection h with h0
        rw [← h0]
        exact List.mem_cons_self _ _

/-- No element exceeds the first maximum. -/
theorem firstMax_le : ∀ (l : List WRow) (w : WRow), firstMax l = some w →
    ∀ x ∈ l, x.sequence_length ≤ w.sequence_length := by
  intro l
  induction l with
  | nil => intro w h; simp [firstMax] at h
  | cons r rs ih =>
    intro w h x hx
    cases hfm : firstMax rs with
    | none =>
      have hrs : rs = [] := by
        cases rs with
        | nil => rfl
        | cons a t =>
          obtain ⟨b, hb⟩ := firstMax_cons_isSome a t
          rw [hb] at hfm
          cases hfm
      rw [show firstMax (r :: rs) = some r by simp [firstMax, hfm]] at h
      injection h with h0
      subst hrs
      rcases List.mem_cons.mp hx with h1 | h1
      · rw [h1, ← h0]
      · cases h1
    | some b =>
      have hb := ih b hfm
      by_cases hgt : b.sequence_length > r.sequence_length
      · rw [show firstMax (r :: rs) = some b by simp [firstMax, hfm, hgt]] at h
        injection h with h0
        rw [← h0]
        rcases List.mem_cons.mp hx with h1 | h1
        · rw [h1]; omega
        · exact hb x h1
      · rw [show firstMax (r :: rs) = some r by simp [firstMax, hfm, hgt]] at h
        injection h with h0
        rw [← h0]
        rcases List.mem_cons.mp hx with h1 | h1
        · rw [h1]
        · have := hb x h1
          omega

/-- The first maximum occurs after strictly smaller elements only. -/
theorem firstMax_first : ∀ (l : List WRow) (w : WRow), firstMax l = some w →
    ∃ l1 l2, l = l1 ++ w :: l2 ∧ ∀ x ∈ l1, x.sequence_length < w.sequence_length := by
  intro l
  induction l with
  | nil => intro w h; simp [firstMax] at h
  | cons r rs ih =>
    intro w h
    cases hfm : firstMax rs with
    | none =>
      rw [show firstMax (r :: rs) = some r by simp [firstMax, hfm]] at h
      injection h with h0
      exact ⟨[], rs, by rw [h0, List.nil_append], by simp⟩
    | some b =>
      by_cases hgt : b.sequence_length > r.sequence_length
      · rw [show firstMax (r :: rs) = some b by simp [firstMax, hfm, hgt]] at h
        injection h with h0
        obtain ⟨l1, l2, hrs, hlt⟩ := ih b hfm
        refine ⟨r :: l1, l2, by rw [hrs, ← h0, List.cons_append], ?_⟩
        intro x hx
        rcases List.mem_cons.mp hx with h1 | h1
        · rw [h1, ← h0]; omega
        · rw [← h0]; exact hlt x h1
      · rw [show firstMax (r :: rs) = some r by simp [firstMax, hfm, hgt]] at h
        injection h with h0
        exact ⟨[], rs, by rw [h0, List.nil_append], by simp⟩

/-- A decomposition of a filtered list lifts to the original list. -/
theorem filter_split (P : WRow → Bool) :
    ∀ (d f1 f2 : List WRow) (w : WRow), d.filter P = f1 ++ w :: f2 →
    ∃ l1 l2, d = l1 ++ w :: l2 ∧ l1.filter P = f1 := by
  intro d
  induction d with
  | nil =>
    intro f1 f2 w h
    rw [List.filter_nil] at h
    exact absurd h.symm (by simp)
  | cons a d' ih =>
    intro f1 f2 w h
    rw [List.filter_cons] at h
    by_cases hp : P a = true
    · rw [if_pos hp] at h
      cases f1 with
      | nil =>
        simp only [List.nil_append] at h
        injection h with h1 h2
        exact ⟨[], d', by rw [h1, List.nil_append], by simp⟩
      | cons b f1x =>
        simp only [List.cons_append] at h
        injection h with h1 h2
        obtain ⟨l1, l2, hd, hf⟩ := ih f1x f2 w h2
        refine ⟨a :: l1, l2, by rw [hd, List.cons_append], ?_⟩
        rw [List.filter_cons, if_pos hp, hf, h1]
    · rw [if_neg hp] at h
      obtain ⟨l1, l2, hd, hf⟩ := ih f1 f2 w h
      refine ⟨a :: l1, l2, by rw [hd, List.cons_append], ?_⟩
      rw [List.filter_cons, if_neg hp, hf]

/-- Filtering a per-group selection for one group keeps at most the row the
selection produced for that group. -/
theorem filterMap_group_filter (F : ℕ → Option WRow) (g : ℕ)
    (hF : ∀ gx wx, F gx = some wx → wx.group_id = gx) :
    ∀ (G : List ℕ), G.Nodup →
    (G.filterMap F).filter (fun r => r.group_id == g) =
      if g ∈ G then (F g).toList else [] := by
  intro G
  induction G with
  | nil => intro _; simp
  | cons gx Gx ih =>
    intro hnd
    have hnd2 : Gx.Nodup := (List.nodup_cons.mp hnd).2
    have hnotin : gx ∉ Gx := (List.nodup_cons.mp hnd).1
    rw [List.filterMap_cons]
    cases hFg : F gx with
    | none =>
      rw [ih hnd2]
      by_cases hgg : g = gx
      · subst hgg
        rw [if_pos (List.mem_cons_self _ _), if_neg hnotin, hFg]
        rfl
      · by_cases hmem : g ∈ Gx
        · rw [if_pos hmem, if_pos (List.mem_cons_of_mem _ hmem)]
        · rw [if_neg hmem, if_neg ?_]
          intro hc
          rcases List.mem_cons.mp hc with h | h
          · exact hgg h
          · exact hmem h
    | some wx =>
      have hwg : wx.group_id = gx := hF gx wx hFg
      rw [List.filter_cons]
      by_cases hgg : gx = g
      · subst hgg
        rw [if_pos (by simp [hwg]), ih hnd2, if_neg hnotin, if_pos (List.mem_cons_self _ _), hFg]
        rfl
      · rw [if_neg (by simp [hwg]; intro hc; exact hgg hc), ih hnd2]
        by_cases hmem : g ∈ Gx
        · rw [if_pos hmem, if_pos (List.mem_cons_of_mem _ hmem)]
        · rw [if_neg hmem, if_neg ?_]
          intro hc
          rcases List.mem_cons.mp hc with h | h
          · exact hgg h.symm
          · exact hmem h

/-- C2: in predict mode, a group with at least one window passing both the
span bound `time_last - time + 1 <= max_prediction_length +
max_encoder_length` and the length bound `sequence_length >=
min_prediction_length + min_encoder_length` contributes exactly one window
to the index: an eligible window of that group of maximal sequence length
that occurs before every other eligible window of the group attaining that
length; a group with no eligible window contributes no window. -/
theorem predict_mode_keeps_first_longest (maxE maxP minE minP : ℕ) (d : List WRow) (g : ℕ) :
    ((∃ r ∈ d, predictEligible maxE maxP minE minP r = true ∧ r.group_id = g) →
      ∃ w, (predictFilter maxE maxP minE minP d).filter (fun r => r.group_id == g) = [w] ∧
        w ∈ d ∧ predictEligible maxE maxP minE minP w = true ∧ w.group_id = g ∧
        (∀ r ∈ d, predictEligible maxE maxP minE minP r = true → r.group_id = g →
          r.sequence_length ≤ w.sequence_length) ∧
        (∃ l1 l2, d = l1 ++ w :: l2 ∧
          ∀ r ∈ l1, predictEligible maxE maxP minE minP r = true → r.group_id = g →
            r.sequence_length < w.sequence_length)) ∧
    ((∀ r ∈ d, r.group_id = g → predictEligible maxE maxP minE minP r = false) →
      (predictFilter maxE maxP minE minP d).filter (fun r => r.group_id == g) = []) := by
  have hFgroup : ∀ gx wx,
      firstMax ((d.filter (predictEligible maxE maxP minE minP)).filter
        (fun r => r.group_id == gx)) = some wx → wx.group_id = gx := by
    intro gx wx hw
    have h1 := firstMax_mem _ _ hw
    have h2 := (List.mem_filter.mp h1).2
    simpa using h2
  have hmain : (predictFilter maxE maxP minE minP d).filter (fun r => r.group_id == g) =
      if g ∈ ((d.filter (predictEligible maxE maxP minE minP)).map WRow.group_id).dedup
      then (firstMax ((d.filter (predictEligible maxE maxP minE minP)).filter
        (fun r => r.group_id == g))).toList
      else [] :=
    filterMap_group_filter _ g hFgroup _ (List.nodup_dedup _)
  constructor
  · rintro ⟨r, hrd, hre, hrg⟩
    have hrkept : r ∈ d.filter (predictEligible maxE maxP minE minP) :=
      List.mem_filter.mpr ⟨hrd, hre⟩
    have hrfl : r ∈ (d.filter (predictEligible maxE maxP minE minP)).filter
        (fun rr => rr.group_id == g) :=
      List.mem_filter.mpr ⟨hrkept, by simp [hrg]⟩
    obtain ⟨w, hw⟩ : ∃ w, firstMax ((d.filter (predictEligible maxE maxP minE minP)).filter
        (fun rr => rr.group_id == g)) = some w := by
      cases hfl : (d.filter (predictEligible maxE maxP minE minP)).filter
          (fun rr => rr.group_id == g) with
      | nil => rw [hfl] at hrfl; cases hrfl
      | cons a t => exact hfl ▸ firstMax_cons_isSome a t
    have hgmem : g ∈ ((d.filter (predictEligible maxE maxP minE minP)).map WRow.group_id).dedup :=
      List.mem_dedup.mpr (List.mem_map.mpr ⟨r, hrkept, hrg⟩)
    have hwmemfl := firstMax_mem _ _ hw
    have hwkept := (List.mem_filter.mp hwmemfl).1
    have hwg : w.group_id = g := by simpa using (List.mem_filter.mp hwmemfl).2
    refine ⟨w, ?_, (List.mem_filter.mp hwkept).1, (List.mem_filter.mp hwkept).2, hwg, ?_, ?_⟩
    · rw [hmain, if_pos hgmem, hw]
      rfl
    · intro rx hrxd hrxe hrxg
      exact firstMax_le _ _ hw rx
        (List.mem_filter.mpr ⟨List.mem_filter.mpr ⟨hrxd, hrxe⟩, by simp [hrxg]⟩)
    · obtain ⟨f1, f2, hfl, hf1lt⟩ := firstMax_first _ _ hw
      rw [List.filter_filter] at hfl
      obtain ⟨l1, l2, hd, hl1⟩ := filter_split _ d f1 f2 w hfl
      refine ⟨l1, l2, hd, ?_⟩
      intro rx hrxl1 hrxe hrxg
      apply hf1lt
      rw [← hl1]
      exact List.mem_filter.mpr ⟨hrxl1, by simp [hrxg, hrxe]⟩
  · intro hnone
    have hfl : (d.filter (predictEligible maxE maxP minE minP)).filter
        (fun rr => rr.group_id == g) = [] := by
      rw [List.filter_eq_nil_iff]
      intro a ha
      have had := (List.mem_filter.mp ha).1
      have hae := (List.mem_filter.mp ha).2
      simp only [beq_iff_eq]
      intro hag
      have := hnone a had hag
      rw [this] at hae
      cases hae
    rw [hmain, hfl]
    simp [firstMax]

/-- C2 witness: a single eligible one-group index keeps exactly that window. -/
theorem predict_mode_keeps_first_longest_witness :
    ∃ w, (predictFilter 1 1 0 1 [⟨0, 0, 1, 0, 1, 2⟩]).filter (fun r => r.group_id == 0) = [w] ∧
      w ∈ [(⟨0, 0, 1, 0, 1, 2⟩ : WRow)] ∧ predictEligible 1 1 0 1 w = true ∧ w.group_id = 0 ∧
      (∀ r ∈ [(⟨0, 0, 1, 0, 1, 2⟩ : WRow)], predictEligible 1 1 0 1 r = true → r.group_id = 0 →
        r.sequence_length ≤ w.sequence_length) ∧
      (∃ l1 l2, [(⟨0, 0, 1, 0, 1, 2⟩ : WRow)] = l1 ++ w :: l2 ∧
        ∀ r ∈ l1, predictEligible 1 1 0 1 r = true → r.group_id = 0 →
          r.sequence_length < w.sequence_length) :=
  (predict_mode_keeps_first_longest 1 1 0 1 [⟨0, 0, 1, 0, 1, 2⟩] 0).1
    ⟨⟨0, 0, 1, 0, 1, 2⟩, by decide, by decide, rfl⟩

end PF

namespace PF

/-- Length of one group's index block. -/
theorem mkGroupRows_length (gid start : ℕ) (ts : List Int) :
    (mkGroupRows gid start ts).length = ts.length := by
  simp [mkGroupRows]

/-- Row access in one group's index block. -/
theorem mkGroupRows_getD (gid start k : ℕ) (ts : List Int) (h : k < ts.length) :
    (mkGroupRows gid start ts).getD k default = groupRow gid ts start k := by
  have hlen : k < (mkGroupRows gid start ts).length := by
    rw [mkGroupRows_length]
    exact h
  rw [List.getD_eq_getElem _ _ hlen]
  simp [mkGroupRows]

/-- Length of the index of a panel beginning with one group. -/
theorem dfIndexFrom_length_cons (gid start : ℕ) (ts : List Int) (rest : Panel) :
    (dfIndexFrom gid start (ts :: rest)).length =
      ts.length + (dfIndexFrom (gid + 1) (start + ts.length) rest).length := by
  simp [dfIndexFrom, mkGroupRows_length]

/-- Every index row belongs to a group block: row `i` sits at in-group offset
`k` of some group `ts`, and the rows of the same group at later offsets sit
at the correspondingly later flat positions. -/
theorem dfIndexFrom_spec : ∀ (p : Panel) (gid start i : ℕ),
    i < (dfIndexFrom gid start p).length →
    ∃ ts g0 s0 k, ts ∈ p ∧ k < ts.length ∧ s0 + k = start + i ∧
      ∀ j, k + j < ts.length →
        i + j < (dfIndexFrom gid start p).length ∧
        (dfIndexFrom gid start p).getD (i + j) default = groupRow g0 ts s0 (k + j) := by
  intro p
  induction p with
  | nil => intro gid start i h; simp [dfIndexFrom] at h
  | cons ts rest ih =>
    intro gid start i h
    rw [dfIndexFrom_length_cons] at h
    by_cases hi : i < ts.length
    · refine ⟨ts, gid, start, i, List.mem_cons_self _ _, hi, by omega, ?_⟩
      intro j hj
      constructor
      · rw [dfIndexFrom_length_cons]
        omega
      · show (mkGroupRows gid start ts ++
            dfIndexFrom (gid + 1) (start + ts.length) rest).getD (i + j) default = _
        rw [List.getD_append _ _ _ _ (by rw [mkGroupRows_length]; exact hj)]
        exact mkGroupRows_getD gid start (i + j) ts hj
    · have h2 : i - ts.length < (dfIndexFrom (gid + 1) (start + ts.length) rest).length := by
        omega
      obtain ⟨tsx, g0, s0, k, hmem, hk, hsk, hrow⟩ := ih (gid + 1) (start + ts.length)
        (i - ts.length) h2
      refine ⟨tsx, g0, s0, k, List.mem_cons_of_mem _ hmem, hk, by omega, ?_⟩
      intro j hj
      obtain ⟨hb, he⟩ := hrow j hj
      constructor
      · rw [dfIndexFrom_length_cons]
        omega
      · show (mkGroupRows gid start ts ++
            dfIndexFrom (gid + 1) (start + ts.length) rest).getD (i + j) default = _
        rw [List.getD_append_right _ _ _ _ (by rw [mkGroupRows_length]; omega)]
        rw [mkGroupRows_length, show i + j - ts.length = i - ts.length + j by omega]
        exact he

/-- Conversely, every in-group position of every group appears as an index
row. -/
theorem dfIndexFrom_exists_row : ∀ (p : Panel) (gid start : ℕ) (ts : List Int), ts ∈ p →
    ∀ k, k < ts.length → ∃ g0 s0 i, i < (dfIndexFrom gid start p).length ∧
      (dfIndexFrom gid start p).getD i default = groupRow g0 ts s0 k := by
  intro p
  induction p with
  | nil => intro gid start ts h; cases h
  | cons ts0 rest ih =>
    intro gid start ts hmem k hk
    rcases List.mem_cons.mp hmem with h | h
    · subst h
      refine ⟨gid, start, k, ?_, ?_⟩
      · rw [dfIndexFrom_length_cons]
        omega
      · show (mkGroupRows gid start ts ++
            dfIndexFrom (gid + 1) (start + ts.length) rest).getD k default = _
        rw [List.getD_append _ _ _ _ (by rw [mkGroupRows_length]; exact hk)]
        exact mkGroupRows_getD gid start k ts hk
    · obtain ⟨g0, s0, i, hb, he⟩ := ih (gid + 1) (start + ts0.length) ts h k hk
      refine ⟨g0, s0, ts0.length + i, ?_, ?_⟩
      · rw [dfIndexFrom_length_cons]
        omega
      · show (mkGroupRows gid start ts0 ++
            dfIndexFrom (gid + 1) (start + ts0.length) rest).getD (ts0.length + i) default = _
        rw [List.getD_append_right _ _ _ _ (by rw [mkGroupRows_length]; omega)]
        rw [mkGroupRows_length, show ts0.length + i - ts0.length = i by omega]
        exact he

/-- When every `time_diff_to_next` of the index equals one, every group of
the panel is gapless. -/
theorem gapless_of_diff_one (p : Panel)
    (hgf : ∀ r ∈ dfIndex p, r.time_diff_to_next = 1) :
    ∀ ts ∈ p, Gapless ts := by
  intro ts hts k hk
  obtain ⟨g0, s0, i, hb, he⟩ := dfIndexFrom_exists_row p 0 0 ts hts k (by omega)
  have hmem : (dfIndex p).getD i default ∈ dfIndex p := by
    show (dfIndexFrom 0 0 p).getD i default ∈ dfIndexFrom 0 0 p
    rw [List.getD_eq_getElem _ _ hb]
    exact List.getElem_mem hb
  have h1 := hgf _ hmem
  rw [show (dfIndex p).getD i default = groupRow g0 ts s0 k from he] at h1
  have h2 : (if k + 1 < ts.length then ts.getD (k + 1) 0 - ts.getD k 0 else 1) = 1 := h1
  rw [if_pos hk] at h2
  omega

/-- In a gapless group, the value at offset `k` is the head plus `k`. -/
theorem gapless_getD (ts : List Int) (hg : Gapless ts) :
    ∀ k, k < ts.length → ts.getD k 0 = ts.headD 0 + (k : Int) := by
  intro k
  induction k with
  | zero =>
    intro h
    cases ts with
    | nil => simp at h
    | cons a l => simp
  | succ k ihk =>
    intro h
    have hk : k < ts.length := by omega
    rw [hg k h, ihk hk]
    push_cast
    ring

/-- The last element of a nonempty list via positional access. -/
theorem getLastD_eq_getD : ∀ (ts : List Int) (d : Int), ts ≠ [] →
    ts.getLastD d = ts.getD (ts.length - 1) 0 := by
  intro ts
  induction ts with
  | nil => intro d h; contradiction
  | cons a l ih =>
    intro d _
    rw [List.getLastD_cons]
    cases l with
    | nil => rfl
    | cons b m =>
      rw [ih a (by simp)]
      have h1 : (a :: b :: m).length - 1 = (b :: m).length - 1 + 1 := by
        simp [List.length_cons]
      rw [h1, List.getD_cons_succ]

/-- A pointer walk that advances by one through `off` positions and then
fixes reaches exactly `off` steps ahead. -/
theorem iterate_walk (f : ℕ → ℕ) (i off : ℕ)
    (hstep : ∀ j, j < off → f (i + j) = i + j + 1) (hfix : f (i + off) = i + off) :
    ∀ s j, j ≤ off → f^[s] (i + j) = i + min (j + s) off := by
  intro s
  induction s with
  | zero =>
    intro j hj
    simp only [Function.iterate_zero_apply]
    congr 1
    omega
  | succ s ihs =>
    intro j hj
    rw [Function.iterate_succ_apply]
    by_cases hjo : j < off
    · rw [hstep j hjo, show i + j + 1 = i + (j + 1) by omega, ihs (j + 1) (by omega)]
      congr 1
      omega
    · have hje : j = off := by omega
      rw [hje, hfix, ihs off (le_refl _)]
      congr 1
      omega

/-- Every element bounds the running maximum from below. -/
theorem foldr_max_le_mem (l : List Int) (x : Int) (hx : x ∈ l) : x ≤ l.foldr max 0 := by
  induction l with
  | nil => cases hx
  | cons a t ih =>
    simp only [List.foldr_cons]
    rcases List.mem_cons.mp hx with h | h
    · rw [h]
      exact le_max_left _ _
    · exact le_trans (ih h) (le_max_right _ _)

/-- C1 (amended): on a panel whose index has all `time_diff_to_next` equal
to one (no gaps anywhere), and provided the window horizon
`max_encoder_length + max_prediction_length` is at least one, the iterative
end-pointer walk and the direct arithmetic computation
`index_start + (max_time - time) - 1` agree on `index_end` for every row,
and hence on `sequence_length`. -/
theorem construct_index_gapless_end_eq (p : Panel) (encL predL : ℕ)
    (hL : 1 ≤ encL + predL)
    (hgf : ∀ r ∈ dfIndex p, r.time_diff_to_next = 1)
    (i : ℕ) (hi : i < (dfIndex p).length) :
    ((indexEndIter p encL predL i : ℕ) : Int) = indexEndArith p encL predL i ∧
    sequenceLengthAt p (indexEndIter p encL predL i) i =
      sequenceLengthAt p (indexEndArith p encL predL i).toNat i := by
  obtain ⟨ts, g0, s0, k, hmem, hk, hsk, hrow⟩ := dfIndexFrom_spec p 0 0 i hi
  have hgl : Gapless ts := gapless_of_diff_one p hgf ts hmem
  have hne : ts ≠ [] := by
    intro hnil
    rw [hnil] at hk
    simp at hk
  have hlen1 : 1 ≤ ts.length := List.length_pos.mpr hne
  have hri : rowAt p i = groupRow g0 ts s0 k := by
    have := (hrow 0 (by omega)).2
    show (dfIndexFrom 0 0 p).getD i default = _
    simpa using this
  have ht0 : ∀ j, k + j < ts.length →
      (rowAt p (i + j)).time = ts.headD 0 + ((k + j : ℕ) : Int) := by
    intro j hj
    have h1 := (hrow j hj).2
    show ((dfIndexFrom 0 0 p).getD (i + j) default).time = _
    rw [h1]
    show ts.getD (k + j) 0 = _
    exact gapless_getD ts hgl (k + j) hj
  have hdiff : ∀ j, k + j < ts.length → (rowAt p (i + j)).time_diff_to_next = 1 := by
    intro j hj
    apply hgf
    have hb := (hrow j hj).1
    show (dfIndexFrom 0 0 p).getD (i + j) default ∈ dfIndexFrom 0 0 p
    rw [List.getD_eq_getElem _ _ hb]
    exact List.getElem_mem hb
  have hstart : (rowAt p i).index_start = i := by
    rw [hri]
    show s0 + k = i
    omega
  have htimei : (rowAt p i).time = ts.headD 0 + (k : Int) := by
    have := ht0 0 (by omega)
    simpa using this
  have hfirst : (rowAt p i).time_first = ts.headD 0 := by
    rw [hri]
    rfl
  have hlast : (rowAt p i).time_last = ts.headD 0 + ((ts.length - 1 : ℕ) : Int) := by
    rw [hri]
    show ts.getLastD 0 = _
    rw [getLastD_eq_getD ts 0 hne]
    exact gapless_getD ts hgl (ts.length - 1) (by omega)
  have hmt : maxTime encL predL (rowAt p i) =
      ts.headD 0 + ((min (k + (encL + predL)) ts.length : ℕ) : Int) := by
    rw [maxTime, rowCount, htimei, hfirst, hlast]
    push_cast
    omega
  obtain ⟨off, hoff⟩ : ∃ off : ℕ, min (k + (encL + predL)) ts.length = k + 1 + off :=
    ⟨min (k + (encL + predL)) ts.length - (k + 1), by omega⟩
  have hoffn : k + off < ts.length := by omega
  have hstep : ∀ j, j < off →
      stepEnd p (maxTime encL predL (rowAt p i)) (i + j) = i + j + 1 := by
    intro j hj
    have hcond : ¬ (ts.headD 0 + ((k + j : ℕ) : Int) + 1 + 1 >
        ts.headD 0 + ((min (k + (encL + predL)) ts.length : ℕ) : Int)) := by
      rw [hoff]
      push_cast
      omega
    rw [stepEnd, ht0 j (by omega), hdiff j (by omega), hmt, if_neg hcond]
  have hfix : stepEnd p (maxTime encL predL (rowAt p i)) (i + off) = i + off := by
    have hcond : ts.headD 0 + ((k + off : ℕ) : Int) + 1 + 1 >
        ts.headD 0 + ((min (k + (encL + predL)) ts.length : ℕ) : Int) := by
      rw [hoff]
      push_cast
      omega
    rw [stepEnd, ht0 off (by omega), hdiff off (by omega), hmt, if_pos hcond]
  have hsteps : off ≤ iterSteps p := by
    have hmemrow : rowAt p i ∈ dfIndex p := by
      rw [rowAt, List.getD_eq_getElem _ _ hi]
      exact List.getElem_mem hi
    have hmemmap : rowCount (rowAt p i) ∈ (dfIndex p).map rowCount :=
      List.mem_map_of_mem _ hmemrow
    have hle := foldr_max_le_mem _ _ hmemmap
    have hcount : rowCount (rowAt p i) = (ts.length : Int) := by
      rw [rowCount, hfirst, hlast]
      omega
    rw [hcount] at hle
    have h2 := Int.toNat_le_toNat hle
    rw [Int.toNat_natCast] at h2
    rw [iterSteps]
    omega
  have hiter : indexEndIter p encL predL i = i + off := by
    have hwalk := iterate_walk (stepEnd p (maxTime encL predL (rowAt p i))) i off hstep hfix
      (iterSteps p) 0 (by omega)
    simp only [Nat.add_zero, Nat.zero_add] at hwalk
    rw [indexEndIter, hstart, hwalk]
    congr 1
    omega
  have harith : indexEndArith p encL predL i = (i : Int) + (off : Int) := by
    rw [indexEndArith, hstart, hmt, htimei, hoff]
    push_cast
    omega
  constructor
  · rw [hiter, harith]
    push_cast
    ring
  · rw [hiter, harith]
    rw [show ((i : Int) + (off : Int)).toNat = i + off by omega]

/-- C1 counterexample: on the gapless single-row panel, with
`max_encoder_length = max_prediction_length = 0`, the iterative walk yields
end index 0 while the direct arithmetic yields -1, so the two computations
are not identical for every gapless input. -/
theorem construct_index_branches_differ_without_horizon :
    (∀ r ∈ dfIndex [[5]], r.time_diff_to_next = 1) ∧
    ((indexEndIter [[5]] 0 0 0 : ℕ) : Int) ≠ indexEndArith [[5]] 0 0 0 := by
  constructor
  · decide
  · decide

/-- C1 witness: on a concrete gapless panel with a positive horizon the two
end-index computations coincide. -/
theorem construct_index_gapless_end_eq_witness :
    (1 ≤ 1 + 1) ∧ (∀ r ∈ dfIndex [[0, 1, 2]], r.time_diff_to_next = 1) ∧
    (0 < (dfIndex [[0, 1, 2]]).length) ∧
    (((indexEndIter [[0, 1, 2]] 1 1 0 : ℕ) : Int) = indexEndArith [[0, 1, 2]] 1 1 0 ∧
      sequenceLengthAt [[0, 1, 2]] (indexEndIter [[0, 1, 2]] 1 1 0) 0 =
        sequenceLengthAt [[0, 1, 2]] (indexEndArith [[0, 1, 2]] 1 1 0).toNat 0) :=
  ⟨by decide, by decide, by decide,
    construct_index_gapless_end_eq [[0, 1, 2]] 1 1 (by decide) (by decide) 0 (by decide)⟩

end PF
